import Mathlib

/-!
Verification of the fork-discovery and remote-reconciliation tool
(`src/main.rs`).  Rust strings are modelled as `List Char` (the inputs of
interest are ASCII, so byte-distinctness coincides with `List Char`
inequality).  Pure functions of the source are translated directly; the
side-effecting reconcile loop of `main` is translated into explicit state
passing over a model of the local git remote store.
-/

/-- The fixed namespace tag `"rgf__"` prepended by `unify_remote_name`. -/
def rgfTag : List Char := ['r', 'g', 'f', '_', '_']

/-- `String::replace("/", "_")`: replace every `'/'` by `'_'`. -/
def replaceSlash (s : List Char) : List Char :=
  s.map (fun c => if c = '/' then '_' else c)

/-- `unify_remote_name` from `src/main.rs`: clone the name, insert `"rgf__"`
at position 0, then replace every `"/"` with `"_"`. -/
def unify_remote_name (name : List Char) : List Char :=
  replaceSlash (rgfTag ++ name)

/-- Rust `str::split('/')` collected to a vector, on `List Char`:
splitting the empty string yields `[[]]`, and each `'/'` starts a new
segment. -/
def splitSlash : List Char → List (List Char)
  | [] => [[]]
  | c :: cs =>
    let r := splitSlash cs
    if c = '/' then [] :: r
    else
      match r with
      | [] => [[c]]
      | p :: ps => (c :: p) :: ps

/-- `OwnerRepo` from `src/main.rs`. -/
structure OwnerRepo where
  owner : List Char
  repo : List Char
deriving DecidableEq

/-- `OwnerRepo::new` from `src/main.rs`: split the input on `'/'`; if the
number of parts is not 2 return the error string, otherwise take the two
parts as `owner` and `repo` (no non-emptiness check is performed). -/
def OwnerRepo.new (orinput : List Char) : Except (List Char) OwnerRepo :=
  match splitSlash orinput with
  | [a, b] => .ok ⟨a, b⟩
  | _ => .error ("Invalid repository format".toList)

theorem replaceSlash_append (a b : List Char) :
    replaceSlash (a ++ b) = replaceSlash a ++ replaceSlash b := by
  simp [replaceSlash]

theorem unify_remote_name_eq (s : List Char) :
    unify_remote_name s = rgfTag ++ replaceSlash s := by
  have h : replaceSlash rgfTag = rgfTag := by decide
  simp [unify_remote_name, replaceSlash_append, h]

theorem replaceSlash_inj_of_no_underscore :
    ∀ s t : List Char, '_' ∉ s → '_' ∉ t →
      replaceSlash s = replaceSlash t → s = t := by
  intro s
  induction s with
  | nil =>
    intro t _ _ h
    cases t with
    | nil => rfl
    | cons b bs => simp [replaceSlash] at h
  | cons a as ih =>
    intro t hs ht h
    cases t with
    | nil => simp [replaceSlash] at h
    | cons b bs =>
      simp only [replaceSlash, List.map_cons, List.cons.injEq] at h
      have ha : a ≠ '_' := fun hc => hs (hc ▸ List.mem_cons_self a as)
      have hb : b ≠ '_' := fun hc => ht (hc ▸ List.mem_cons_self b bs)
      have hab : a = b := by
        by_cases h1 : a = '/' <;> by_cases h2 : b = '/' <;>
          simp [h1, h2] at h <;> first
          | exact h1.trans h2.symm
          | exact absurd h.1.symm hb
          | exact absurd h.1 ha
          | exact h.1
      refine congrArg₂ List.cons hab ?_
      exact ih bs (fun hm => hs (List.mem_cons_of_mem a hm))
        (fun hm => ht (List.mem_cons_of_mem b hm))
        (by simpa [replaceSlash] using h.2)

/-- Claim C1 (counterexample): the remote-name deriver is not injective on
byte-distinct inputs: the distinct full names `"a/b"` and `"a_b"` derive
the same remote identifier `"rgf__a_b"`. -/
theorem derive_not_injective_cex :
    unify_remote_name ['a', '/', 'b'] = unify_remote_name ['a', '_', 'b'] ∧
    ['a', '/', 'b'] ≠ ['a', '_', 'b'] := by
  constructor
  · decide
  · decide

/-- Claim C1 (amended): the remote-name deriver is injective on
byte-distinct inputs that contain no underscore: for two such full names
that differ in at least one byte, `unify_remote_name` produces distinct
outputs. -/
theorem derive_injective_on_underscore_free (s t : List Char)
    (hs : '_' ∉ s) (ht : '_' ∉ t) (hne : s ≠ t) :
    unify_remote_name s ≠ unify_remote_name t := by
  intro h
  rw [unify_remote_name_eq, unify_remote_name_eq] at h
  exact hne (replaceSlash_inj_of_no_underscore s t hs ht
    (List.append_cancel_left h))

/-- Witness for C1: the amended injectivity theorem applied at the concrete
underscore-free inputs `"a/b"` and `"c/d"`. -/
theorem derive_injective_witness :
    unify_remote_name ['a', '/', 'b'] ≠ unify_remote_name ['c', '/', 'd'] :=
  derive_injective_on_underscore_free ['a', '/', 'b'] ['c', '/', 'd']
    (by decide) (by decide) (by decide)

theorem splitSlash_ne_nil (s : List Char) : splitSlash s ≠ [] := by
  cases s with
  | nil => simp [splitSlash]
  | cons c cs =>
    simp only [splitSlash]
    by_cases h : c = '/'
    · simp [h]
    · simp only [h, if_false]
      cases splitSlash cs with
      | nil => simp
      | cons p ps => simp

theorem splitSlash_length (s : List Char) :
    (splitSlash s).length = s.count '/' + 1 := by
  induction s with
  | nil => simp [splitSlash]
  | cons c cs ih =>
    simp only [splitSlash]
    by_cases h : c = '/'
    · simp [h, List.count_cons, ih]
    · simp only [h, if_false]
      have hne := splitSlash_ne_nil cs
      cases hsp : splitSlash cs with
      | nil => exact absurd hsp hne
      | cons p ps =>
        have h2 : (splitSlash cs).length = ps.length + 1 := by simp [hsp]
        have hcc : ¬ ('/' = c) := fun hh => h hh.symm
        have h3 : (c :: cs).count '/' = cs.count '/' := by
          simp [List.count_cons, h, hcc]
        simp only [List.length_cons, h3]
        omega

/-- Claim C2 (counterexample): the parser accepts `"a/"`, whose second
segment is empty, returning `{owner := "a", repo := ""}` instead of the
parse error the claim requires for an empty segment. -/
theorem parser_accepts_empty_segment_cex :
    OwnerRepo.new ['a', '/'] = .ok ⟨['a'], []⟩ := rfl

/-- Claim C2 (amended): the repository-identifier parser succeeds exactly
when splitting the input on `'/'` yields exactly two segments — equivalently,
when the input contains exactly one `'/'` — with no non-emptiness
requirement on the segments; on success it returns the two segments as
`{owner, repo}`, and for zero slashes or more than one slash (including the
empty string) it returns a parse error. -/
theorem parser_succeeds_iff_one_slash (s : List Char) :
    ((∃ r, OwnerRepo.new s = .ok r) ↔ s.count '/' = 1) ∧
    (∀ a b, splitSlash s = [a, b] → OwnerRepo.new s = .ok ⟨a, b⟩) ∧
    (s.count '/' ≠ 1 → OwnerRepo.new s = .error ("Invalid repository format".toList)) := by
  have hlen := splitSlash_length s
  refine ⟨⟨?_, ?_⟩, ?_, ?_⟩
  · rintro ⟨r, hr⟩
    cases hsp : splitSlash s with
    | nil => exact absurd hsp (splitSlash_ne_nil s)
    | cons p ps =>
      cases ps with
      | nil => simp [OwnerRepo.new, hsp] at hr
      | cons q qs =>
        cases qs with
        | nil =>
          have : (splitSlash s).length = 2 := by simp [hsp]
          omega
        | cons u us => simp [OwnerRepo.new, hsp] at hr
  · intro hc
    have h2 : (splitSlash s).length = 2 := by omega
    cases hsp : splitSlash s with
    | nil => exact absurd hsp (splitSlash_ne_nil s)
    | cons p ps =>
      cases ps with
      | nil => rw [hsp] at h2; simp at h2
      | cons q qs =>
        cases qs with
        | nil => exact ⟨⟨p, q⟩, by simp [OwnerRepo.new, hsp]⟩
        | cons u us => rw [hsp] at h2; simp at h2
  · intro a b hsp
    simp [OwnerRepo.new, hsp]
  · intro hc
    cases hsp : splitSlash s with
    | nil => exact absurd hsp (splitSlash_ne_nil s)
    | cons p ps =>
      cases ps with
      | nil => simp [OwnerRepo.new, hsp]
      | cons q qs =>
        cases qs with
        | nil =>
          have : (splitSlash s).length = 2 := by simp [hsp]
          omega
        | cons u us => simp [OwnerRepo.new, hsp]

/-- Witness for C2: the amended parser theorem applied at `"a/b"` (success,
returning the two segments) and at `"ab"` (failure, zero slashes). -/
theorem parser_witness :
    OwnerRepo.new ['a', '/', 'b'] = .ok ⟨['a'], ['b']⟩ ∧
    OwnerRepo.new ['a', 'b'] = .error ("Invalid repository format".toList) :=
  ⟨(parser_succeeds_iff_one_slash ['a', '/', 'b']).2.1 ['a'] ['b'] (by decide),
   (parser_succeeds_iff_one_slash ['a', 'b']).2.2 (by decide)⟩

/-!
Model of the reconcile loop of `main` (`src/main.rs`, the `if args.add`
block).  The local git repository's remote store is a list of
`(name, url)` pairs in creation order.  `git2`'s `Repository::remote`
(remote creation) fails when a remote of that name already exists, and is
otherwise modelled with an abstract deterministic validity predicate
`valid name url` standing for the store's name/URL validation; all theorems
below are proved for every such predicate.

Mode mapping from the CLI flags: `ListOnly` is `--list` without `--add`;
`DryRun` is `--add --dry-run`; `Apply` is `--add` without `--dry-run`.
-/

/-- A fork descriptor as consumed from the fork-listing response:
`full_name`, `clone_url` and `forks_count`. -/
structure ForkDescriptor where
  full_name : List Char
  clone_url : List Char
  forks_count : Nat
deriving DecidableEq

/-- The local repository's remote store: `(name, url)` pairs in creation
order. -/
structure GitRepo where
  remotes : List (List Char × List Char)
deriving DecidableEq

/-- The remote names of the store, as returned by `repo.remotes()`. -/
def GitRepo.names (g : GitRepo) : List (List Char) :=
  g.remotes.map Prod.fst

/-- One per-fork outcome, mirroring the lines `main` prints: `"= {name}"`
(skip), `"(+) {name}"` (would add), `"Remote {name} added"`,
`"Failed to add remote {name}"`, and the `--list` line
`"{full_name} | {forks_count}"`. -/
inductive ReconcileAction where
  | skip (name : List Char)
  | wouldAdd (name : List Char)
  | added (name : List Char)
  | addFailed (name : List Char)
  | report (full_name : List Char) (forks_count : Nat)
deriving DecidableEq

/-- A mutation of the remote store.  The reconcile loop only ever calls
`repo.remote(name, url)`, so creation is the only constructor. -/
inductive StoreOp where
  | create (name url : List Char)
deriving DecidableEq

/-- `git2 Repository::remote(name, url)`: fails if a remote of that name
already exists or the store rejects the name/URL (`valid`); otherwise
appends the new remote. -/
def createRemote (valid : List Char → List Char → Bool) (g : GitRepo)
    (name url : List Char) : Except Unit GitRepo :=
  if name ∈ g.names then .error ()
  else if valid name url then .ok ⟨g.remotes ++ [(name, url)]⟩
  else .error ()

/-- Result of a run: the actions printed, the final store, and the store
mutations attempted. -/
structure RunResult where
  actions : List ReconcileAction
  repo : GitRepo
  ops : List StoreOp
deriving DecidableEq

/-- One iteration of the `for fork in forks` loop of `main`: derive the
remote name, check it against the snapshot of remote names read before the
loop, then skip / would-add / attempt creation. -/
def addStep (valid : List Char → List Char → Bool) (dryRun : Bool)
    (snapshot : List (List Char)) (g : GitRepo) (fork : ForkDescriptor) :
    ReconcileAction × GitRepo × List StoreOp :=
  let remote_name := unify_remote_name fork.full_name
  if remote_name ∈ snapshot then (.skip remote_name, g, [])
  else if dryRun then (.wouldAdd remote_name, g, [])
  else
    match createRemote valid g remote_name fork.clone_url with
    | .ok g2 => (.added remote_name, g2, [.create remote_name fork.clone_url])
    | .error _ => (.addFailed remote_name, g, [.create remote_name fork.clone_url])

/-- The whole `for fork in forks` loop of the `if args.add` block, with the
snapshot `current_remotes` fixed at entry while the store itself evolves. -/
def addLoop (valid : List Char → List Char → Bool) (dryRun : Bool)
    (snapshot : List (List Char)) : GitRepo → List ForkDescriptor → RunResult
  | g, [] => ⟨[], g, []⟩
  | g, f :: fs =>
    let s := addStep valid dryRun snapshot g f
    let r := addLoop valid dryRun snapshot s.2.1 fs
    ⟨s.1 :: r.actions, r.repo, s.2.2 ++ r.ops⟩

/-- The post-fetch part of `main`: the `if args.list` report loop followed
by the `if args.add` reconcile loop (which first reads the snapshot
`repo.remotes()`). -/
def runMain (valid : List Char → List Char → Bool)
    (listFlag addFlag dryRun : Bool) (forks : List ForkDescriptor)
    (g : GitRepo) : RunResult :=
  let reports :=
    if listFlag then forks.map (fun f => ReconcileAction.report f.full_name f.forks_count)
    else []
  if addFlag then
    let r := addLoop valid dryRun g.names g forks
    ⟨reports ++ r.actions, r.repo, r.ops⟩
  else ⟨reports, g, []⟩

theorem addLoop_nil (valid : List Char → List Char → Bool) (dryRun : Bool)
    (snapshot : List (List Char)) (g : GitRepo) :
    addLoop valid dryRun snapshot g [] = ⟨[], g, []⟩ := rfl

theorem addLoop_cons (valid : List Char → List Char → Bool) (dryRun : Bool)
    (snapshot : List (List Char)) (g : GitRepo) (f : ForkDescriptor)
    (fs : List ForkDescriptor) :
    addLoop valid dryRun snapshot g (f :: fs) =
      ⟨(addStep valid dryRun snapshot g f).1 ::
        (addLoop valid dryRun snapshot (addStep valid dryRun snapshot g f).2.1 fs).actions,
       (addLoop valid dryRun snapshot (addStep valid dryRun snapshot g f).2.1 fs).repo,
       (addStep valid dryRun snapshot g f).2.2 ++
        (addLoop valid dryRun snapshot (addStep valid dryRun snapshot g f).2.1 fs).ops⟩ := rfl

theorem addLoop_length (valid : List Char → List Char → Bool) (dryRun : Bool)
    (snapshot : List (List Char)) :
    ∀ (fs : List ForkDescriptor) (g : GitRepo),
      (addLoop valid dryRun snapshot g fs).actions.length = fs.length := by
  intro fs
  induction fs with
  | nil => intro g; rfl
  | cons f fs ih =>
    intro g
    rw [addLoop_cons]
    simp only [List.length_cons]
    rw [ih]

theorem addLoop_append (valid : List Char → List Char → Bool) (dryRun : Bool)
    (snapshot : List (List Char)) :
    ∀ (fs1 fs2 : List ForkDescriptor) (g : GitRepo),
      addLoop valid dryRun snapshot g (fs1 ++ fs2) =
        ⟨(addLoop valid dryRun snapshot g fs1).actions ++
          (addLoop valid dryRun snapshot (addLoop valid dryRun snapshot g fs1).repo fs2).actions,
         (addLoop valid dryRun snapshot (addLoop valid dryRun snapshot g fs1).repo fs2).repo,
         (addLoop valid dryRun snapshot g fs1).ops ++
          (addLoop valid dryRun snapshot (addLoop valid dryRun snapshot g fs1).repo fs2).ops⟩ := by
  intro fs1
  induction fs1 with
  | nil => intro fs2 g; rfl
  | cons f fs1 ih =>
    intro fs2 g
    rw [List.cons_append, addLoop_cons, addLoop_cons, ih]
    simp [List.append_assoc]

/-- The store only grows during a run: the final remotes list is the
initial one followed by fresh entries whose names were not present
initially. -/
theorem addLoop_store_extends (valid : List Char → List Char → Bool)
    (dryRun : Bool) (snapshot : List (List Char)) :
    ∀ (fs : List ForkDescriptor) (g : GitRepo),
      ∃ ext, (addLoop valid dryRun snapshot g fs).repo.remotes = g.remotes ++ ext ∧
        ∀ p ∈ ext, p.1 ∉ g.names := by
  intro fs
  induction fs with
  | nil => intro g; exact ⟨[], by simp [addLoop_nil], by simp⟩
  | cons f fs ih =>
    intro g
    rw [addLoop_cons]
    have hstep : ∃ e0, (addStep valid dryRun snapshot g f).2.1.remotes = g.remotes ++ e0 ∧
        ∀ p ∈ e0, p.1 ∉ g.names := by
      unfold addStep
      by_cases h1 : unify_remote_name f.full_name ∈ snapshot
      · exact ⟨[], by simp [h1], by simp⟩
      · by_cases h2 : dryRun
        · exact ⟨[], by simp [h1, h2], by simp⟩
        · simp only [h1, h2, if_false]
          unfold createRemote
          by_cases h3 : unify_remote_name f.full_name ∈ g.names
          · exact ⟨[], by simp [h3], by simp⟩
          · by_cases h4 : valid (unify_remote_name f.full_name) f.clone_url
            · refine ⟨[(unify_remote_name f.full_name, f.clone_url)], ?_, ?_⟩
              · simp [h3, h4]
              · intro p hp
                simp at hp
                rw [hp]
                exact h3
            · exact ⟨[], by simp [h3, h4], by simp⟩
    obtain ⟨e0, he0, he0names⟩ := hstep
    obtain ⟨ext, hext, hextnames⟩ := ih (addStep valid dryRun snapshot g f).2.1
    refine ⟨e0 ++ ext, ?_, ?_⟩
    · show (addLoop valid dryRun snapshot (addStep valid dryRun snapshot g f).2.1 fs).repo.remotes = _
      rw [hext, he0, List.append_assoc]
    · intro p hp
      rcases List.mem_append.mp hp with hp | hp
      · exact he0names p hp
      · intro hmem
        apply hextnames p hp
        unfold GitRepo.names
        rw [he0]
        simp only [List.map_append, List.mem_append]
        exact Or.inl hmem

theorem addLoop_repo_cons (valid : List Char → List Char → Bool) (dryRun : Bool)
    (snapshot : List (List Char)) (g : GitRepo) (f : ForkDescriptor)
    (fs : List ForkDescriptor) :
    (addLoop valid dryRun snapshot g (f :: fs)).repo =
      (addLoop valid dryRun snapshot (addStep valid dryRun snapshot g f).2.1 fs).repo := rfl

theorem addLoop_names_mono (valid : List Char → List Char → Bool) (dryRun : Bool)
    (snapshot : List (List Char)) (fs : List ForkDescriptor) (g : GitRepo)
    (n : List Char) (h : n ∈ g.names) :
    n ∈ (addLoop valid dryRun snapshot g fs).repo.names := by
  obtain ⟨ext, hext, -⟩ := addLoop_store_extends valid dryRun snapshot fs g
  unfold GitRepo.names at h ⊢
  rw [hext, List.map_append, List.mem_append]
  exact Or.inl h

theorem addStep_names_mono (valid : List Char → List Char → Bool) (dryRun : Bool)
    (snapshot : List (List Char)) (g : GitRepo) (f : ForkDescriptor)
    (n : List Char) (h : n ∈ g.names) :
    n ∈ (addStep valid dryRun snapshot g f).2.1.names :=
  addLoop_names_mono valid dryRun snapshot [f] g n h

/-- A fork whose derived name is in the snapshot is emitted as `Skip`, at
the same position in the action list as in the fork list. -/
theorem addLoop_skip_of_mem (valid : List Char → List Char → Bool) (dryRun : Bool)
    (snapshot : List (List Char)) :
    ∀ (fs : List ForkDescriptor) (g : GitRepo) (i : Nat) (h : i < fs.length),
      unify_remote_name (fs.get ⟨i, h⟩).full_name ∈ snapshot →
      (addLoop valid dryRun snapshot g fs).actions[i]? =
        some (.skip (unify_remote_name (fs.get ⟨i, h⟩).full_name)) := by
  intro fs
  induction fs with
  | nil => intro g i h; exact absurd h (by simp)
  | cons f fs ih =>
    intro g i h hmem
    cases i with
    | zero =>
      have hm : unify_remote_name f.full_name ∈ snapshot := hmem
      rw [addLoop_cons]
      show ((addStep valid dryRun snapshot g f).1 :: _)[0]? =
        some (.skip (unify_remote_name f.full_name))
      rw [List.getElem?_cons_zero]
      unfold addStep
      simp [hm]
    | succ i =>
      rw [addLoop_cons]
      show ((addStep valid dryRun snapshot g f).1 ::
        (addLoop valid dryRun snapshot (addStep valid dryRun snapshot g f).2.1 fs).actions)[i + 1]? = _
      rw [List.getElem?_cons_succ]
      exact ih _ i (Nat.lt_of_succ_lt_succ h) hmem

/-- After an `Apply` run whose snapshot is contained in the starting store's
names, every processed fork either has its derived name in the final store
or is rejected by the store's validation. -/
theorem addLoop_apply_post (valid : List Char → List Char → Bool)
    (snapshot : List (List Char)) :
    ∀ (fs : List ForkDescriptor) (g : GitRepo), snapshot ⊆ g.names →
      ∀ f ∈ fs,
        unify_remote_name f.full_name ∈ (addLoop valid false snapshot g fs).repo.names ∨
        valid (unify_remote_name f.full_name) f.clone_url = false := by
  intro fs
  induction fs with
  | nil => intro g _ f hf; exact absurd hf (by simp)
  | cons f0 fs ih =>
    intro g hsub f hf
    rw [addLoop_repo_cons]
    rcases List.mem_cons.mp hf with heq | hf
    · subst heq
      by_cases x1 : unify_remote_name f.full_name ∈ snapshot
      · exact Or.inl (addLoop_names_mono _ _ _ _ _ _
          (addStep_names_mono _ _ _ _ _ _ (hsub x1)))
      · by_cases x2 : unify_remote_name f.full_name ∈ g.names
        · exact Or.inl (addLoop_names_mono _ _ _ _ _ _
            (addStep_names_mono _ _ _ _ _ _ x2))
        · by_cases x3 : valid (unify_remote_name f.full_name) f.clone_url = true
          · have hstep : (addStep valid false snapshot g f).2.1 =
                ⟨g.remotes ++ [(unify_remote_name f.full_name, f.clone_url)]⟩ := by
              unfold addStep createRemote
              simp [x1, x2, x3]
            refine Or.inl (addLoop_names_mono _ _ _ _ _ _ ?_)
            rw [hstep]
            unfold GitRepo.names
            simp
          · exact Or.inr (by simpa using x3)
    · exact ih (addStep valid false snapshot g f0).2.1
        (fun n hn => addStep_names_mono _ _ _ _ _ _ (hsub hn)) f hf

/-- If every fork not already covered by the snapshot is rejected by the
store's validation, an `Apply` run emits no `Added` action. -/
theorem addLoop_no_added_of_invalid (valid : List Char → List Char → Bool)
    (snapshot : List (List Char)) :
    ∀ (fs : List ForkDescriptor) (g : GitRepo),
      (∀ f ∈ fs, unify_remote_name f.full_name ∉ snapshot →
        valid (unify_remote_name f.full_name) f.clone_url = false) →
      ∀ a ∈ (addLoop valid false snapshot g fs).actions, ∀ n, a ≠ .added n := by
  intro fs
  induction fs with
  | nil => intro g _ a ha; exact absurd ha (by simp [addLoop_nil])
  | cons f0 fs ih =>
    intro g hv a ha n
    rw [addLoop_cons] at ha
    simp only [List.mem_cons] at ha
    rcases ha with heq | ha
    · subst heq
      unfold addStep
      by_cases x1 : unify_remote_name f0.full_name ∈ snapshot
      · simp [x1]
      · have hval := hv f0 (List.mem_cons_self f0 fs) x1
        unfold createRemote
        by_cases x2 : unify_remote_name f0.full_name ∈ g.names
        · simp [x1, x2]
        · simp [x1, x2, hval]
    · exact ih (addStep valid false snapshot g f0).2.1
        (fun f hf => hv f (List.mem_cons_of_mem f0 hf)) a ha n

/-- Claim C3: reconciliation is idempotent.  Run the `Apply` loop once from
store `g` (snapshot `g.names`); run it again from the updated store with a
fresh snapshot.  The second run produces zero `Added` actions, and every
fork whose derived name is in the updated remote set is emitted as `Skip`
at its own position. -/
theorem reconcile_idempotent (valid : List Char → List Char → Bool)
    (forks : List ForkDescriptor) (g : GitRepo) :
    (∀ a ∈ (addLoop valid false (addLoop valid false g.names g forks).repo.names
        (addLoop valid false g.names g forks).repo forks).actions,
      ∀ n, a ≠ .added n) ∧
    (∀ (i : Nat) (h : i < forks.length),
      unify_remote_name (forks.get ⟨i, h⟩).full_name ∈
          (addLoop valid false g.names g forks).repo.names →
      (addLoop valid false (addLoop valid false g.names g forks).repo.names
          (addLoop valid false g.names g forks).repo forks).actions[i]? =
        some (.skip (unify_remote_name (forks.get ⟨i, h⟩).full_name))) := by
  constructor
  · apply addLoop_no_added_of_invalid
    intro f hf hnot
    rcases addLoop_apply_post valid g.names forks g (fun n hn => hn) f hf with hin | hinv
    · exact absurd hin hnot
    · exact hinv
  · intro i h hmem
    exact addLoop_skip_of_mem valid false _ forks _ i h hmem

/-- Witness for C3: one fork `"a/b"` added to an empty store by the first
run is skipped by the second run. -/
theorem reconcile_idempotent_witness :
    (addLoop (fun _ _ => true) false
        (addLoop (fun _ _ => true) false (GitRepo.mk []).names (GitRepo.mk [])
          [⟨['a', '/', 'b'], ['u'], 0⟩]).repo.names
        (addLoop (fun _ _ => true) false (GitRepo.mk []).names (GitRepo.mk [])
          [⟨['a', '/', 'b'], ['u'], 0⟩]).repo
        [⟨['a', '/', 'b'], ['u'], 0⟩]).actions[0]? =
      some (.skip (unify_remote_name ['a', '/', 'b'])) :=
  (reconcile_idempotent (fun _ _ => true) [⟨['a', '/', 'b'], ['u'], 0⟩]
    (GitRepo.mk [])).2 0 (by decide) (by decide)

theorem addLoop_dry (valid : List Char → List Char → Bool)
    (snapshot : List (List Char)) :
    ∀ (fs : List ForkDescriptor) (g : GitRepo),
      (addLoop valid true snapshot g fs).repo = g ∧
      (addLoop valid true snapshot g fs).ops = [] := by
  intro fs
  induction fs with
  | nil => intro g; exact ⟨rfl, rfl⟩
  | cons f fs ih =>
    intro g
    have hstep : (addStep valid true snapshot g f).2 = (g, []) := by
      unfold addStep
      by_cases h : unify_remote_name f.full_name ∈ snapshot <;> simp [h]
    rw [addLoop_cons]
    have h1 : (addStep valid true snapshot g f).2.1 = g := by rw [hstep]
    have h2 : (addStep valid true snapshot g f).2.2 = [] := by rw [hstep]
    rw [h1, h2]
    exact ⟨(ih g).1, by rw [List.nil_append]; exact (ih g).2⟩

/-- Claim C4: dry-run purity.  In `DryRun` mode (`--add --dry-run`), for
every fork list and every store, the run performs no remote-store mutation
operation and leaves the store — hence its set of remote names — unchanged. -/
theorem dry_run_pure (valid : List Char → List Char → Bool) (listFlag : Bool)
    (forks : List ForkDescriptor) (g : GitRepo) :
    (runMain valid listFlag true true forks g).repo = g ∧
    (runMain valid listFlag true true forks g).ops = [] := by
  have h := addLoop_dry valid g.names forks g
  constructor
  · show (addLoop valid true g.names g forks).repo = g
    exact h.1
  · show (addLoop valid true g.names g forks).ops = []
    exact h.2

/-- Claim C5: the reconciler never deletes, renames, or overwrites an
existing remote.  For every run of the reconcile loop: the final remote
list is the initial one (with its URLs untouched) followed by entries whose
names were not initially present; every fork whose derived name is already
in the snapshot is emitted as `Skip` (whatever URL is stored for it); and
every store operation invoked is a `create`. -/
theorem no_overwrite_no_delete (valid : List Char → List Char → Bool)
    (dryRun : Bool) (forks : List ForkDescriptor) (g : GitRepo) :
    (∃ ext, (addLoop valid dryRun g.names g forks).repo.remotes = g.remotes ++ ext ∧
      ∀ p ∈ ext, p.1 ∉ g.names) ∧
    (∀ (i : Nat) (h : i < forks.length),
      unify_remote_name (forks.get ⟨i, h⟩).full_name ∈ g.names →
      (addLoop valid dryRun g.names g forks).actions[i]? =
        some (.skip (unify_remote_name (forks.get ⟨i, h⟩).full_name))) ∧
    (∀ op ∈ (addLoop valid dryRun g.names g forks).ops, ∃ n u, op = .create n u) := by
  refine ⟨addLoop_store_extends valid dryRun g.names forks g, ?_, ?_⟩
  · intro i h hmem
    exact addLoop_skip_of_mem valid dryRun g.names forks g i h hmem
  · intro op _
    cases op with
    | create n u => exact ⟨n, u, rfl⟩

/-- Witness for C5: with `"rgf__a_b"` already stored (under a different
URL than the fork's), the fork `"a/b"` is skipped. -/
theorem no_overwrite_no_delete_witness :
    (addLoop (fun _ _ => true) false
        (GitRepo.mk [(unify_remote_name ['a', '/', 'b'], ['o', 'l', 'd'])]).names
        (GitRepo.mk [(unify_remote_name ['a', '/', 'b'], ['o', 'l', 'd'])])
        [⟨['a', '/', 'b'], ['n', 'e', 'w'], 0⟩]).actions[0]? =
      some (.skip (unify_remote_name ['a', '/', 'b'])) :=
  (no_overwrite_no_delete (fun _ _ => true) false
    [⟨['a', '/', 'b'], ['n', 'e', 'w'], 0⟩]
    (GitRepo.mk [(unify_remote_name ['a', '/', 'b'], ['o', 'l', 'd'])])).2.1
    0 (by decide) (by decide)

/-- Claim C6: a single remote-creation failure is non-fatal.  In `Apply`
mode, if the store rejects the creation of fork `f`'s remote (its derived
name is not in the snapshot and validation refuses it), the run emits
`AddFailed` for `f`, leaves the store as it was after the preceding forks,
and still processes every subsequent fork. -/
theorem add_failure_nonfatal (valid : List Char → List Char → Bool)
    (g : GitRepo) (fs1 fs2 : List ForkDescriptor) (f : ForkDescriptor)
    (hmem : unify_remote_name f.full_name ∉ g.names)
    (hval : valid (unify_remote_name f.full_name) f.clone_url = false) :
    (addLoop valid false g.names g (fs1 ++ f :: fs2)).actions =
      (addLoop valid false g.names g fs1).actions ++
      .addFailed (unify_remote_name f.full_name) ::
      (addLoop valid false g.names
        (addLoop valid false g.names g fs1).repo fs2).actions := by
  rw [addLoop_append]
  have hstep : addStep valid false g.names
      (addLoop valid false g.names g fs1).repo f =
      (.addFailed (unify_remote_name f.full_name),
       (addLoop valid false g.names g fs1).repo,
       [.create (unify_remote_name f.full_name) f.clone_url]) := by
    unfold addStep createRemote
    by_cases h2 : unify_remote_name f.full_name ∈
        (addLoop valid false g.names g fs1).repo.names <;>
      simp [hmem, h2, hval]
  show ((addLoop valid false g.names g fs1).actions ++
      ((addStep valid false g.names (addLoop valid false g.names g fs1).repo f).1 ::
        (addLoop valid false g.names
          (addStep valid false g.names (addLoop valid false g.names g fs1).repo f).2.1
          fs2).actions)) = _
  rw [hstep]

/-- Witness for C6: with an empty store and a store that rejects every
creation, the middle fork fails and the following fork is still processed. -/
theorem add_failure_nonfatal_witness :
    (addLoop (fun _ _ => false) false (GitRepo.mk []).names (GitRepo.mk [])
        ([] ++ ⟨['a', '/', 'b'], ['u'], 0⟩ :: [⟨['c', '/', 'd'], ['u'], 1⟩])).actions =
      (addLoop (fun _ _ => false) false (GitRepo.mk []).names (GitRepo.mk [])
        []).actions ++
      .addFailed (unify_remote_name ['a', '/', 'b']) ::
      (addLoop (fun _ _ => false) false (GitRepo.mk []).names
        (addLoop (fun _ _ => false) false (GitRepo.mk []).names (GitRepo.mk [])
          []).repo [⟨['c', '/', 'd'], ['u'], 1⟩]).actions :=
  add_failure_nonfatal (fun _ _ => false) (GitRepo.mk []) []
    [⟨['c', '/', 'd'], ['u'], 1⟩] ⟨['a', '/', 'b'], ['u'], 0⟩
    (by decide) (by decide)

/-- Claim C7: list-only purity.  In `ListOnly` mode (`--list` without
`--add`), the run emits exactly one `Report(full_name, forks_count)` per
fork, in order, performs no store operation and leaves the store unchanged;
moreover the emitted actions do not depend on the store at all (the remote
store is never even read in this mode). -/
theorem list_only_pure (valid : List Char → List Char → Bool) (dryRun : Bool)
    (forks : List ForkDescriptor) (g g2 : GitRepo) :
    runMain valid true false dryRun forks g =
      ⟨forks.map (fun f => .report f.full_name f.forks_count), g, []⟩ ∧
    (runMain valid true false dryRun forks g).actions =
      (runMain valid true false dryRun forks g2).actions :=
  ⟨rfl, rfl⟩

theorem addLoop_get_eq_step (valid : List Char → List Char → Bool) (dryRun : Bool)
    (snapshot : List (List Char)) :
    ∀ (fs : List ForkDescriptor) (g : GitRepo) (i : Nat) (h : i < fs.length),
      (addLoop valid dryRun snapshot g fs).actions[i]? =
        some (addStep valid dryRun snapshot
          (addLoop valid dryRun snapshot g (fs.take i)).repo (fs.get ⟨i, h⟩)).1 := by
  intro fs
  induction fs with
  | nil => intro g i h; exact absurd h (by simp)
  | cons f fs ih =>
    intro g i h
    cases i with
    | zero =>
      rw [addLoop_cons]
      show ((addStep valid dryRun snapshot g f).1 :: _)[0]? =
        some (addStep valid dryRun snapshot
          (addLoop valid dryRun snapshot g []).repo f).1
      rw [List.getElem?_cons_zero, addLoop_nil]
    | succ i =>
      rw [addLoop_cons]
      show ((addStep valid dryRun snapshot g f).1 ::
        (addLoop valid dryRun snapshot (addStep valid dryRun snapshot g f).2.1 fs).actions)[i + 1]? =
        some (addStep valid dryRun snapshot
          (addLoop valid dryRun snapshot g (f :: fs.take i)).repo (fs.get ⟨i, Nat.lt_of_succ_lt_succ h⟩)).1
      rw [List.getElem?_cons_succ, addLoop_cons]
      exact ih (addStep valid dryRun snapshot g f).2.1 i (Nat.lt_of_succ_lt_succ h)

/-- Claim C8: order preservation.  The reconcile loop emits exactly one
action per fork, and the `i`-th emitted action is the action of the `i`-th
fork of the input sequence (computed at the store state reached after the
first `i` forks): no reordering or batching across forks. -/
theorem order_preserved (valid : List Char → List Char → Bool) (dryRun : Bool)
    (snapshot : List (List Char)) (fs : List ForkDescriptor) (g : GitRepo) :
    (addLoop valid dryRun snapshot g fs).actions.length = fs.length ∧
    ∀ (i : Nat) (h : i < fs.length),
      (addLoop valid dryRun snapshot g fs).actions[i]? =
        some (addStep valid dryRun snapshot
          (addLoop valid dryRun snapshot g (fs.take i)).repo (fs.get ⟨i, h⟩)).1 :=
  ⟨addLoop_length valid dryRun snapshot fs g,
   fun i h => addLoop_get_eq_step valid dryRun snapshot fs g i h⟩

/-- Witness for C8: in a two-fork run the second emitted action is the
second fork's action. -/
theorem order_preserved_witness :
    (addLoop (fun _ _ => true) false [] (GitRepo.mk [])
        [⟨['a', '/', 'b'], ['u'], 0⟩, ⟨['c', '/', 'd'], ['v'], 1⟩]).actions[1]? =
      some (addStep (fun _ _ => true) false []
        (addLoop (fun _ _ => true) false [] (GitRepo.mk [])
          ([⟨['a', '/', 'b'], ['u'], 0⟩, ⟨['c', '/', 'd'], ['v'], 1⟩].take 1)).repo
        ([⟨['a', '/', 'b'], ['u'], 0⟩,
          ⟨['c', '/', 'd'], ['v'], 1⟩].get ⟨1, by decide⟩)).1 :=
  (order_preserved (fun _ _ => true) false [] [⟨['a', '/', 'b'], ['u'], 0⟩,
    ⟨['c', '/', 'd'], ['v'], 1⟩] (GitRepo.mk [])).2 1 (by decide)

/-!
Raw model of the membership test on line 179 of `src/main.rs`:
`current_remotes.iter().any(|r| r.unwrap() == remote_name)`.
`repo.remotes()` yields each stored remote name as an `Option` — `none`
when the stored bytes are not valid UTF-8 — and `any` unwraps each entry
in turn, panicking on `none`, stopping at the first entry equal to
`remote_name`.  A panic aborts the whole run (`none` result).
-/

/-- The `any(|r| r.unwrap() == remote_name)` scan: `error` is the panic of
`unwrap` on a non-UTF-8 entry, reached only if no earlier entry matched. -/
def anyUnwrapEq : List (Option (List Char)) → List Char → Except Unit Bool
  | [], _ => .ok false
  | none :: _, _ => .error ()
  | some r :: rest, n => if r = n then .ok true else anyUnwrapEq rest n

/-- The reconcile loop over the raw snapshot (`Option`-valued remote
names): identical to `addLoop` except that the membership test can panic,
aborting the run (`none`). -/
def addLoopRaw (valid : List Char → List Char → Bool) (dryRun : Bool)
    (snapshot : List (Option (List Char))) :
    GitRepo → List ForkDescriptor → Option (List ReconcileAction × GitRepo)
  | g, [] => some ([], g)
  | g, f :: fs =>
    match anyUnwrapEq snapshot (unify_remote_name f.full_name) with
    | .error _ => none
    | .ok true =>
      match addLoopRaw valid dryRun snapshot g fs with
      | none => none
      | some (acts, g2) => some (.skip (unify_remote_name f.full_name) :: acts, g2)
    | .ok false =>
      if dryRun then
        match addLoopRaw valid dryRun snapshot g fs with
        | none => none
        | some (acts, g2) => some (.wouldAdd (unify_remote_name f.full_name) :: acts, g2)
      else
        match createRemote valid g (unify_remote_name f.full_name) f.clone_url with
        | .ok g2 =>
          match addLoopRaw valid dryRun snapshot g2 fs with
          | none => none
          | some (acts, g3) => some (.added (unify_remote_name f.full_name) :: acts, g3)
        | .error _ =>
          match addLoopRaw valid dryRun snapshot g fs with
          | none => none
          | some (acts, g2) => some (.addFailed (unify_remote_name f.full_name) :: acts, g2)

theorem anyUnwrapEq_all_some (names : List (List Char)) (n : List Char) :
    anyUnwrapEq (names.map some) n = .ok (decide (n ∈ names)) := by
  induction names with
  | nil => simp [anyUnwrapEq]
  | cons m ms ih =>
    simp only [List.map_cons, anyUnwrapEq]
    by_cases h : m = n
    · subst h
      simp
    · rw [if_neg h, ih]
      have hnm : ¬ (n = m) := fun hh => h hh.symm
      simp [List.mem_cons, hnm]

/-- When every snapshot entry is valid UTF-8 the raw loop never panics and
computes exactly the actions and final store of `addLoop`. -/
theorem addLoopRaw_all_some (valid : List Char → List Char → Bool)
    (dryRun : Bool) (names : List (List Char)) :
    ∀ (fs : List ForkDescriptor) (g : GitRepo),
      addLoopRaw valid dryRun (names.map some) g fs =
        some ((addLoop valid dryRun names g fs).actions,
          (addLoop valid dryRun names g fs).repo) := by
  intro fs
  induction fs with
  | nil => intro g; rfl
  | cons f fs ih =>
    intro g
    unfold addLoopRaw
    rw [anyUnwrapEq_all_some, addLoop_cons]
    cases hd : decide (unify_remote_name f.full_name ∈ names) with
    | true =>
      have hmem : unify_remote_name f.full_name ∈ names := of_decide_eq_true hd
      have hstep : addStep valid dryRun names g f =
          (.skip (unify_remote_name f.full_name), g, []) := by
        unfold addStep
        simp [hmem]
      rw [ih g, hstep]
    | false =>
      have hmem : unify_remote_name f.full_name ∉ names := of_decide_eq_false hd
      cases hdry : dryRun with
      | true =>
        rw [hdry] at ih
        have hstep : addStep valid true names g f =
            (.wouldAdd (unify_remote_name f.full_name), g, []) := by
          unfold addStep
          simp [hmem]
        rw [ih g, hstep]
        rfl
      | false =>
        rw [hdry] at ih
        cases hcr : createRemote valid g (unify_remote_name f.full_name) f.clone_url with
        | ok g2 =>
          have hstep : addStep valid false names g f =
              (.added (unify_remote_name f.full_name), g2,
               [.create (unify_remote_name f.full_name) f.clone_url]) := by
            unfold addStep
            simp [hmem, hcr]
          simp [ih, hstep]
        | error e =>
          have hstep : addStep valid false names g f =
              (.addFailed (unify_remote_name f.full_name), g,
               [.create (unify_remote_name f.full_name) f.clone_url]) := by
            unfold addStep
            simp [hmem, hcr]
          rw [ih g, hstep]
          rfl

/-- Claim C9 (counterexample): a non-UTF-8 remote name (the `none` entry)
does not make the program panic when an earlier entry matches: `any`
short-circuits at the match, `unwrap` is never called on the `none`, and
the fork is skipped normally. -/
theorem unwrap_short_circuit_cex :
    addLoopRaw (fun _ _ => true) false
        [some (unify_remote_name ['a', '/', 'b']), none]
        (GitRepo.mk []) [⟨['a', '/', 'b'], ['u'], 0⟩] =
      some ([.skip (unify_remote_name ['a', '/', 'b'])], GitRepo.mk []) := rfl

theorem anyUnwrapEq_panic (n : List Char) :
    ∀ (pre rest : List (Option (List Char))),
      (∀ o ∈ pre, o ≠ some n) →
      anyUnwrapEq (pre ++ none :: rest) n = .error () := by
  intro pre
  induction pre with
  | nil => intro rest _; rfl
  | cons o pre ih =>
    intro rest hpre
    cases o with
    | none => rfl
    | some r =>
      have hne : r ≠ n := fun hh =>
        hpre (some r) (List.mem_cons_self _ _) (congrArg some hh)
      show (if r = n then Except.ok true
        else anyUnwrapEq (pre ++ none :: rest) n) = .error ()
      rw [if_neg hne]
      exact ih rest (fun o ho => hpre o (List.mem_cons_of_mem _ ho))

/-- Claim C9 (amended): the membership scan calls `.unwrap()` on each
stored remote name in order only until the first entry equal to the fork's
derived name; if a non-UTF-8 entry (`none`) occurs before any matching
entry, the `unwrap` panics and the whole run aborts — it neither returns
an error value nor skips that entry. -/
theorem unwrap_panic_before_match (valid : List Char → List Char → Bool)
    (dryRun : Bool) (pre rest : List (Option (List Char))) (g : GitRepo)
    (f : ForkDescriptor) (fs : List ForkDescriptor)
    (hpre : ∀ o ∈ pre, o ≠ some (unify_remote_name f.full_name)) :
    addLoopRaw valid dryRun (pre ++ none :: rest) g (f :: fs) = none := by
  unfold addLoopRaw
  rw [anyUnwrapEq_panic (unify_remote_name f.full_name) pre rest hpre]

/-- Witness for C9: a run whose snapshot holds a non-matching entry
followed by a non-UTF-8 entry panics on its first fork. -/
theorem unwrap_panic_witness :
    addLoopRaw (fun _ _ => true) false ([some ['z']] ++ none :: [])
        (GitRepo.mk []) [⟨['a', '/', 'b'], ['u'], 0⟩] = none :=
  unwrap_panic_before_match (fun _ _ => true) false [some ['z']] []
    (GitRepo.mk []) ⟨['a', '/', 'b'], ['u'], 0⟩ [] (by decide)

/-!
Model of `main`'s control flow before and including the fork-listing
request (`src/main.rs` lines 109-157): parse the repository argument
(`expect` panics on failure, before any API call); if `--rate-limit` is
set, query the rate-limit endpoint, panicking on a non-OK status and
calling `exit(1)` on a transport error; then issue the one fork-listing
request.  The `--list`, `--add` and `--dry-run` flags are only consulted
after the fetch.
-/

/-- A hosting-provider API request issued by `main`. -/
inductive ApiCall where
  | rateLimit
  | listForks (owner repo : List Char) (per_page page : Nat)
deriving DecidableEq

/-- The sequence of API requests `main` issues up to and including the
fork-listing fetch.  `rlOk` tells whether the rate-limit endpoint call (if
made) returns `Ok` with status OK; when it does not, the process aborts
before the fork-listing request. -/
def mainApiCalls (repository : List Char)
    (rateLimitFlag rlOk listFlag addFlag dryRun : Bool)
    (per_page page : Nat) : List ApiCall :=
  match OwnerRepo.new repository with
  | .error _ => []
  | .ok orv =>
    if rateLimitFlag then
      if rlOk then [.rateLimit, .listForks orv.owner orv.repo per_page page]
      else [.rateLimit]
    else [.listForks orv.owner orv.repo per_page page]

def isListForks : ApiCall → Bool
  | .listForks _ _ _ _ => true
  | .rateLimit => false

/-- Number of fork-listing requests in a trace. -/
def countForkRequests (t : List ApiCall) : Nat :=
  (t.filter isListForks).length

/-- Claim C10 (counterexample): an invocation whose repository argument
parses fine but whose requested rate-limit call fails issues zero
fork-listing requests — the process aborts before the fetch, so the claim
that a successful parse always leads to exactly one fork-listing request
is false. -/
theorem rate_limit_failure_skips_fetch_cex :
    countForkRequests
        (mainApiCalls ['a', '/', 'b'] true false false false false 10 1) = 0 ∧
    OwnerRepo.new ['a', '/', 'b'] = .ok ⟨['a'], ['b']⟩ :=
  ⟨rfl, rfl⟩

/-- Claim C10 (amended): for every invocation whose repository-identifier
parse succeeds and whose rate-limit call — when requested — succeeds,
exactly one fork-listing request is issued, regardless of the `--list`,
`--add` and `--dry-run` mode flags (in particular a rate-limit-only
invocation still consumes fork-listing quota). -/
theorem fork_fetch_unconditional (repository : List Char)
    (rateLimitFlag rlOk listFlag addFlag dryRun : Bool) (per_page page : Nat)
    (hparse : ∃ r, OwnerRepo.new repository = .ok r)
    (hrl : rateLimitFlag = true → rlOk = true) :
    countForkRequests (mainApiCalls repository rateLimitFlag rlOk listFlag
      addFlag dryRun per_page page) = 1 := by
  obtain ⟨r, hr⟩ := hparse
  unfold mainApiCalls
  rw [hr]
  cases rateLimitFlag with
  | false => simp [countForkRequests, isListForks]
  | true =>
    rw [hrl rfl]
    simp [countForkRequests, isListForks]

/-- Witness for C10: with all mode flags set and a healthy rate-limit call,
exactly one fork-listing request is issued. -/
theorem fork_fetch_witness :
    countForkRequests
        (mainApiCalls ['a', '/', 'b'] true true true true true 10 1) = 1 :=
  fork_fetch_unconditional ['a', '/', 'b'] true true true true true 10 1
    ⟨⟨['a'], ['b']⟩, rfl⟩ (fun _ => rfl)
